import Mathlib

/-!
Verification of the essentiality pipeline of `ccal` (file
`ccal/computational_cancer_biology/imv.py`): a shallow embedding of
`fit_essentiality`, `make_essentiality_matrix` and `get_amp_mut_del`,
together with models of the numpy/pandas primitives they call
(`linspace`, `argmin`, `sign`, `sort_values`-via-argsort-quicksort) and,
modelled from the specification because the file
`ccal/mathematics/equation.py` is not part of the provided sources, the
reflection and cumulative-area-ratio helpers.

Real values are embedded as rationals (`ℚ`), so all arithmetic is exact
and every definition is executable.  Missing values (NaN cells of a
pandas frame) are embedded as `Option ℚ` with `none` for a missing
entry; the numeric core of `make_essentiality_matrix` is embedded over
fully observed rows (`ℚ` cells).  Row labels are strings; Python
truthiness of a label (`any(index)`) is the label being non-empty.
-/

/-- A fitted-parameter record: one row of the `feature_x_fit` table,
columns `N, DF, Shape, Location, Scale` (imv.py line 62). -/
structure Fit where
  n : ℚ
  df : ℚ
  shape : ℚ
  location : ℚ
  scale : ℚ
deriving Repr, DecidableEq, Inhabited

/-- A pandas DataFrame with possibly-missing numeric cells: column
labels plus labelled rows (`none` = NaN). -/
structure DF where
  cols : List String
  rows : List (String × List (Option ℚ))
deriving Repr, DecidableEq, Inhabited

/-- A pandas DataFrame with fully observed numeric cells, used for the
score matrix consumed by `make_essentiality_matrix`. -/
structure DFq where
  cols : List String
  rows : List (String × List ℚ)
deriving Repr, DecidableEq, Inhabited

/-- A pandas Series: an optional name plus values (imv.py
`get_amp_mut_del` builds unnamed null Series and renames them). -/
structure SeriesQ where
  name : Option String
  values : List (Option ℚ)
deriving Repr, DecidableEq, Inhabited

/-- First row of `rows` labelled `lbl`, if any (pandas `.ix[lbl, :]` on a
unique index). -/
def lookupRow {β : Type} (rows : List (String × β)) (lbl : String) : Option β :=
  (rows.find? (fun r => r.1 == lbl)).map Prod.snd

/-- numpy `sign`: 1 for positive, -1 for negative, 0 for zero. -/
def npSign (x : ℚ) : ℚ :=
  if 0 < x then 1 else if x < 0 then -1 else 0

/-- numpy `.min()` of a vector (0 on the empty vector, which the
embedded call sites never hit with meaningful data). -/
def listMin : List ℚ → ℚ
  | [] => 0
  | x :: xs => xs.foldl min x

/-- numpy `.max()` of a vector. -/
def listMax : List ℚ → ℚ
  | [] => 0
  | x :: xs => xs.foldl max x

/-- numpy `linspace(a, b, n)`: `n` evenly spaced points from `a` to `b`
inclusive (step `(b-a)/(n-1)`; for `n = 1` the rational division by zero
is 0 and the single point is `a`, as numpy returns `[a]`). -/
def linspace (a b : ℚ) (n : ℕ) : List ℚ :=
  (List.range n).map (fun (i : ℕ) => a + (i : ℚ) * ((b - a) / ((n : ℚ) - 1)))

/-- Accumulator loop of numpy `argmin`: scan `l` (whose head sits at
global index `i`), keeping the index `bi` and value `bv` of the best
element seen so far and replacing them only on a strict decrease. -/
def argminAux (l : List ℚ) (i bi : ℕ) (bv : ℚ) : ℕ :=
  match l with
  | [] => bi
  | x :: xs => if x < bv then argminAux xs (i + 1) i x else argminAux xs (i + 1) bi bv

/-- numpy `argmin`: index of the first occurrence of the minimum. -/
def argmin : List ℚ → ℕ
  | [] => 0
  | x :: xs => argminAux xs 1 0 x

/-- Accumulator loop of numpy `argmax`, dual to `argminAux`. -/
def argmaxAux (l : List ℚ) (i bi : ℕ) (bv : ℚ) : ℕ :=
  match l with
  | [] => bi
  | x :: xs => if bv < x then argmaxAux xs (i + 1) i x else argmaxAux xs (i + 1) bi bv

/-- numpy `argmax`: index of the first occurrence of the maximum. -/
def argmax : List ℚ → ℕ
  | [] => 0
  | x :: xs => argmaxAux xs 1 0 x

/-- Modelled from the spec: `define_x_coordinates_for_reflection` lives
in `ccal/mathematics/equation.py`, which is not among the provided
sources.  Per spec section 4.2 it locates the grid index of the curve's
maximum (first occurrence on ties) and mirrors every grid coordinate
through the mode: reflected x = 2 * (mode x) - x. -/
def define_x_coordinates_for_reflection (pdf : List ℚ) (x_grids : List ℚ) : List ℚ :=
  let mode := argmax pdf
  let xm := x_grids.getD mode 0
  x_grids.map (fun x => 2 * xm - x)

/-- Modelled from the spec: `define_cumulative_area_ratio_function`
lives in `ccal/mathematics/equation.py`, which is not among the provided
sources.  Per spec section 4.3, at grid index i let `cumA i` and
`cumB i` be the running (left-Riemann) sums of the two curves strictly
before i (so the first grid point has ratio 0); the ratio is
`cumA / (cumA + cumB)` with the convention 0 when both sums are zero;
direction "+" reports the ratio, any other direction reports one minus
the ratio. -/
def define_cumulative_area_ratio_function (curveA curveB x_grids : List ℚ)
    (direction : String) : List ℚ :=
  (List.range x_grids.length).map (fun i =>
    let ca := (curveA.take i).sum
    let cb := (curveB.take i).sum
    let r := if ca = 0 ∧ cb = 0 then 0 else ca / (ca + cb)
    if direction = "+" then r else 1 - r)

/-- The direction argument computed at imv.py lines 262 and 387:
the Python expression `['+', '-'][shape > 0]` indexes the two-element
list with the boolean (`True` selects index 1). -/
def essentiality_direction (shape : ℚ) : String :=
  (["+", "-"]).getD (if 0 < shape then 1 else 0) "+"

/-- The per-feature x-grid of `make_essentiality_matrix` (imv.py line
378): `linspace(vector.min(), vector.max(), n_x_grids)`. -/
def build_x_grids (vector : List ℚ) (n_x_grids : ℕ) : List ℚ :=
  linspace (listMin vector) (listMax vector) n_x_grids

/-- The essentiality-index curve computed per feature by
`make_essentiality_matrix` (imv.py lines 377-387): skew-t pdf on the
grid, reflected grid, pdf on the reflected grid, then the cumulative
area ratio with direction `['+', '-'][shape > 0]`.  The skew-t pdf
itself (statsmodels `ACSkewT_gen.pdf`) is an external numerical routine
and is passed in as the function argument `pdf x df shape loc scale`. -/
def essCurveOf (pdf : ℚ → ℚ → ℚ → ℚ → ℚ → ℚ) (vector : List ℚ) (fit : Fit)
    (n_x_grids : ℕ) : List ℚ :=
  let x_grids := build_x_grids vector n_x_grids
  let skew_t_pdf := x_grids.map (fun x => pdf x fit.df fit.shape fit.location fit.scale)
  let x_grids_for_reflection := define_x_coordinates_for_reflection skew_t_pdf x_grids
  let skew_t_pdf_reflected :=
    x_grids_for_reflection.map (fun x => pdf x fit.df fit.shape fit.location fit.scale)
  define_cumulative_area_ratio_function skew_t_pdf skew_t_pdf_reflected x_grids
    (essentiality_direction fit.shape)

/-- One output row of `make_essentiality_matrix` (imv.py lines 389-390):
for each observed value v, `factor * sign(shape) *
essentiality_indices[argmin(abs(x_grids - v))]`. -/
def essRow (pdf : ℚ → ℚ → ℚ → ℚ → ℚ → ℚ) (vector : List ℚ) (fit : Fit)
    (n_x_grids : ℕ) (factor : ℚ) : List ℚ :=
  vector.map (fun v =>
    factor * npSign fit.shape *
      (essCurveOf pdf vector fit n_x_grids).getD
        (argmin ((build_x_grids vector n_x_grids).map (fun x => |x - v|))) 0)

/-- `make_essentiality_matrix` (imv.py lines 355-392): restrict both
frames to the common feature labels (pandas index intersection; the
`if any(common_indices)` at lines 365-368 only chooses a log message and
does not branch the computation), then build one essentiality row per
common feature.  No exception is raised on an empty intersection. -/
def make_essentiality_matrix (pdf : ℚ → ℚ → ℚ → ℚ → ℚ → ℚ) (feature_x_sample : DFq)
    (feature_x_fit : List (String × Fit)) (n_x_grids : ℕ) (factor : ℚ) : DFq :=
  let common := (feature_x_sample.rows.map Prod.fst).filter
    (fun g => (feature_x_fit.map Prod.fst).contains g)
  let rows := common.map (fun g =>
    let vector := (lookupRow feature_x_sample.rows g).getD []
    let fit := (lookupRow feature_x_fit g).getD default
    (g, essRow pdf vector fit n_x_grids factor))
  ⟨feature_x_sample.cols, rows⟩

/-- The essentiality-index curve computed by the plotting path
`_plot_essentiality` (imv.py lines 226-262): same pipeline as the
builder, except both pdf curves are rescaled by
`histogram_max / skew_t_pdf.max()` (the histogram bin maximum is an
external matplotlib/numpy value and is passed in as `histogram_max`).
The direction is again `['+', '-'][shape > 0]` (line 262). -/
def plot_essentiality_indices (pdf : ℚ → ℚ → ℚ → ℚ → ℚ → ℚ) (vector : List ℚ)
    (df shape location scale : ℚ) (n_xgrids : ℕ) (histogram_max : ℚ) : List ℚ :=
  let x_grids := linspace (listMin vector) (listMax vector) n_xgrids
  let pdf0 := x_grids.map (fun x => pdf x df shape location scale)
  let scale_factor := histogram_max / listMax pdf0
  let skew_t_pdf := pdf0.map (fun y => y * scale_factor)
  let x_grids_for_reflection := define_x_coordinates_for_reflection skew_t_pdf x_grids
  let skew_t_pdf_reflected :=
    x_grids_for_reflection.map (fun x => pdf x df shape location scale * scale_factor)
  define_cumulative_area_ratio_function skew_t_pdf skew_t_pdf_reflected x_grids
    (essentiality_direction shape)

/-- `get_amp_mut_del` (imv.py lines 318-352).  The Python function
allocates ONE null Series (`null = Series(index=...)`, all values NaN,
name None) and, for each of the suffixes AMP, MUT, DEL whose row is
absent, binds the result variable to that same object and mutates its
`.name`; because the object is shared, the name finally stored is the
one set by the LAST absent suffix.  The embedding threads that final
name explicitly.  Present rows are returned as stored, named by their
label.  The function is total: a missing row is substituted, never an
error. -/
def get_amp_mut_del (gene_x_samples : DF) (gene : String) : List SeriesQ :=
  let ampRow := lookupRow gene_x_samples.rows (gene ++ "_AMP")
  let mutRow := lookupRow gene_x_samples.rows (gene ++ "_MUT")
  let delRow := lookupRow gene_x_samples.rows (gene ++ "_DEL")
  let nullName : Option String :=
    if delRow = none then some (gene ++ "_DEL")
    else if mutRow = none then some (gene ++ "_MUT")
    else if ampRow = none then some (gene ++ "_AMP")
    else none
  let nullValues : List (Option ℚ) := List.replicate gene_x_samples.cols.length none
  let resolve : Option (List (Option ℚ)) → String → SeriesQ := fun r lbl =>
    match r with
    | some vs => ⟨some lbl, vs⟩
    | none => ⟨nullName, nullValues⟩
  [resolve ampRow (gene ++ "_AMP"), resolve mutRow (gene ++ "_MUT"),
   resolve delRow (gene ++ "_DEL")]

/-!
`feature_x_fit.sort_values('Shape')` (imv.py line 89) sorts via numpy
`argsort(kind='quicksort')`.  numpy's quicksort on an index permutation
(`npysort` `aquicksort`) is: segments of at most 16 positions are
insertion-sorted (cutoff constant `SMALL_QUICKSORT = 15`); longer
segments are partitioned by a median-of-three Hoare partition with
index swaps, processing the smaller side first and stacking the larger.
The insertion sort shifts an element down past strictly greater keys,
so it is stable; the partition swaps equal-keyed indices across the
pivot, so the whole sort is not.  The partition loop is given fuel
`num` (each partition finally places one pivot, so at most `num`
partitions ever run and the fuel is never exhausted).
-/

/-- Swap the entries of the index list at positions `i` and `j`. -/
def swapPos (t : List ℕ) (i j : ℕ) : List ℕ :=
  let a := t.getD i 0
  let b := t.getD j 0
  (t.set i b).set j a

/-- Structural loop of the upward partition scan: take at most `gas`
steps upward past keys below the pivot. -/
def scanUpGas (key : ℕ → ℚ) (t : List ℕ) (vp : ℚ) : ℕ → ℕ → ℕ
  | 0, pos => pos
  | gas + 1, pos => if key (t.getD pos 0) < vp then scanUpGas key t vp gas (pos + 1) else pos

/-- Partition scan upward (`do ++pi while key < pivot`), capped at
`cap` (in C the pivot sentinel stops the scan before the cap). -/
def scanUp (key : ℕ → ℚ) (t : List ℕ) (vp : ℚ) (pos cap : ℕ) : ℕ :=
  scanUpGas key t vp (cap - pos) pos

/-- Structural loop of the downward partition scan: take at most `gas`
steps downward past keys above the pivot. -/
def scanDownGas (key : ℕ → ℚ) (t : List ℕ) (vp : ℚ) : ℕ → ℕ → ℕ
  | 0, pos => pos
  | gas + 1, pos => if vp < key (t.getD pos 0) then scanDownGas key t vp gas (pos - 1) else pos

/-- Partition scan downward (`do --pj while pivot < key`), floored at
`fl` (in C the median-of-three sentinel stops the scan before the
floor). -/
def scanDown (key : ℕ → ℚ) (t : List ℕ) (vp : ℚ) (pos fl : ℕ) : ℕ :=
  scanDownGas key t vp (pos - fl) pos

/-- The crossing loop of the Hoare partition: advance both scans, stop
when they cross, otherwise swap and continue. -/
def crossLoop (key : ℕ → ℚ) (vp : ℚ) (fuel : ℕ) (t : List ℕ)
    (pi pj pl pr : ℕ) : List ℕ × ℕ :=
  match fuel with
  | 0 => (t, pi)
  | fuel + 1 =>
    let pi2 := scanUp key t vp (pi + 1) pr
    let pj2 := scanDown key t vp (pj - 1) pl
    if pj2 ≤ pi2 then (t, pi2)
    else crossLoop key vp fuel (swapPos t pi2 pj2) pi2 pj2 pl pr

/-- One numpy quicksort partition of the segment `[pl, pr]`:
median-of-three pivot selection with swaps, pivot parked at `pr - 1`,
crossing loop, pivot swapped to its final position `pi`. -/
def npyPartition (key : ℕ → ℚ) (t : List ℕ) (pl pr : ℕ) : List ℕ × ℕ :=
  let pm := pl + (pr - pl) / 2
  let t1 := if key (t.getD pm 0) < key (t.getD pl 0) then swapPos t pm pl else t
  let t2 := if key (t1.getD pr 0) < key (t1.getD pm 0) then swapPos t1 pr pm else t1
  let t3 := if key (t2.getD pm 0) < key (t2.getD pl 0) then swapPos t2 pm pl else t2
  let vp := key (t3.getD pm 0)
  let t4 := swapPos t3 pm (pr - 1)
  let s := crossLoop key vp (pr - pl + 1) t4 pl (pr - 1) pl pr
  (swapPos s.1 s.2 (pr - 1), s.2)

/-- Stable insertion of index `a` into an index list sorted by `key`:
`a` is placed before the first element with a strictly greater key,
i.e. after every element whose key is less than or equal (exactly what
numpy's downward shifting loop `while vp < v[*pk]` does). -/
def orderedInsertR (key : ℕ → ℚ) (a : ℕ) : List ℕ → List ℕ
  | [] => [a]
  | b :: l => if key a < key b then a :: b :: l else b :: orderedInsertR key a l

/-- numpy's insertion sort of an index segment, scanning left to right
and inserting each index into the sorted prefix. -/
def insSort (key : ℕ → ℚ) (seg : List ℕ) : List ℕ :=
  seg.foldl (fun acc x => orderedInsertR key x acc) []

/-- Insertion-sort the positions `pl..pr` of the index list in place. -/
def applySegInsertion (key : ℕ → ℚ) (t : List ℕ) (pl pr : ℕ) : List ℕ :=
  t.take pl ++ insSort key ((t.drop pl).take (pr + 1 - pl)) ++ t.drop (pr + 1)

/-- The quicksort driver over a stack of segments (head = segment the C
code processes next).  Short segments are insertion-sorted; long ones
partitioned, continuing with the smaller half and stacking the larger,
exactly as numpy does.  `gas` bounds the number of stack pops and only
exists to make the recursion structural; each partition finally places
one pivot, so a run on `num` indices processes at most `1 + 2 * num`
segments and the gas passed in by `npyArgsortQuick` is never
exhausted. -/
def npyQsortSegs (key : ℕ → ℚ) (gas : ℕ) (t : List ℕ) (segs : List (ℕ × ℕ)) : List ℕ :=
  match gas with
  | 0 => t
  | gas + 1 =>
    match segs with
    | [] => t
    | (pl, pr) :: rest =>
      if pr ≤ pl + 15 then
        npyQsortSegs key gas (applySegInsertion key t pl pr) rest
      else
        let s := npyPartition key t pl pr
        let pi := s.2
        let segs2 := if pi - pl < pr - pi
          then (pl, pi - 1) :: (pi + 1, pr) :: rest
          else (pi + 1, pr) :: (pl, pi - 1) :: rest
        npyQsortSegs key gas s.1 segs2

/-- numpy `argsort(kind='quicksort')` of the keys `key 0 .. key (num-1)`:
the permutation listing the indices in sorted key order. -/
def npyArgsortQuick (key : ℕ → ℚ) (num : ℕ) : List ℕ :=
  npyQsortSegs key (2 * num + 2) (List.range num) [(0, num - 1)]

/-- pandas `DataFrame.sort_values('Shape')` on the fit table: argsort
the Shape column with numpy quicksort and reorder the rows by the
resulting permutation. -/
def sortValuesShape (tbl : List (String × Fit)) : List (String × Fit) :=
  let key : ℕ → ℚ := fun i => ((tbl.getD i default).2).shape
  (npyArgsortQuick key tbl.length).map (fun i => tbl.getD i default)

/-- One iteration of the fitting loop of `fit_essentiality` (imv.py
lines 64-72): drop the row's missing entries, record `n` as the cleaned
count and take the four fitted parameters from the fitter.  The skew-t
maximum-likelihood fitter (statsmodels `ACSkewT_gen.fit`) is an external
numerical routine and is passed in as `fitFn`, returning
`(df, shape, location, scale)`. -/
def fitRow (fitFn : List ℚ → ℚ × ℚ × ℚ × ℚ) (r : String × List (Option ℚ)) :
    String × Fit :=
  let cleaned := r.2.filterMap id
  let p := fitFn cleaned
  (r.1, ⟨(cleaned.length : ℚ), p.1, p.2.1, p.2.2.1, p.2.2.2⟩)

/-- `feature_x_sample.ix[features, :]` (imv.py line 52): one row per
requested label in request order; a label absent from the matrix
reindexes to an all-NaN row. -/
def selectRows (m : DF) (fs : List String) : List (String × List (Option ℚ)) :=
  fs.map (fun f => (f, (lookupRow m.rows f).getD (List.replicate m.cols.length none)))

/-- `.dropna(how='all')` (imv.py line 52): keep only rows with at least
one observed value. -/
def dropAllNa (rows : List (String × List (Option ℚ))) :
    List (String × List (Option ℚ)) :=
  rows.filter (fun r => r.2.any (fun c => c.isSome))

/-- The rows `fit_essentiality` iterates over: with a truthy `features`
argument (a non-empty list; Python `if features:`), the selected rows
after dropping all-missing ones; otherwise all rows of the matrix. -/
def processedRows (m : DF) (feats : Option (List String)) :
    List (String × List (Option ℚ)) :=
  match feats with
  | some fs => if fs.isEmpty then m.rows else dropAllNa (selectRows m fs)
  | none => m.rows

/-- Whether the `features` argument is truthy (`if features:`). -/
def selectionActive (feats : Option (List String)) : Bool :=
  match feats with
  | some fs => !fs.isEmpty
  | none => false

/-- `fit_essentiality` (imv.py lines 29-96), table-only entry (the
file-path overload and the plotting side effects are out of the
embedded core).  With a truthy selection whose surviving index has no
truthy label (`if any(feature_x_sample.index)` at line 53, Python
truthiness of a string label = non-empty), the call raises
`ValueError`; otherwise every processed row is fitted in order and the
table is sorted by Shape with pandas `sort_values` (numpy quicksort). -/
def fit_essentiality (fitFn : List ℚ → ℚ × ℚ × ℚ × ℚ) (m : DF)
    (feats : Option (List String)) : Except String (List (String × Fit)) :=
  let rows := processedRows m feats
  if selectionActive feats && !(rows.any (fun r => !r.1.isEmpty)) then
    .error "All of the selected features are not in the feature_x_sample indices."
  else
    .ok (sortValuesShape (rows.map (fitRow fitFn)))

/-!  Helper lemmas about the embedded numpy primitives. -/

/-- Invariant of the `argmin` accumulator loop: either the scan never
improves on the incoming best value `bv` (result `bi`), or the result
points `k` positions into `l` at the first occurrence of the strict
minimum of the remaining list. -/
theorem argminAux_spec (l : List ℚ) : ∀ (i bi : ℕ) (bv : ℚ),
    (argminAux l i bi bv = bi ∧ ∀ k, k < l.length → bv ≤ l.getD k 0) ∨
    (∃ k, k < l.length ∧ argminAux l i bi bv = i + k ∧ l.getD k 0 < bv ∧
      (∀ t, t < l.length → l.getD k 0 ≤ l.getD t 0) ∧
      (∀ t, t < k → l.getD k 0 < l.getD t 0)) := by
  induction l with
  | nil =>
    intro i bi bv
    left
    exact ⟨rfl, by intro k hk; simp at hk⟩
  | cons x xs ih =>
    intro i bi bv
    by_cases hx : x < bv
    · right
      rcases ih (i + 1) i x with ⟨heq, hall⟩ | ⟨k, hk, heq, hlt, hmin, hfirst⟩
      · refine ⟨0, by simp, ?_, ?_, ?_, ?_⟩
        · simpa [argminAux, hx] using heq
        · simpa using hx
        · intro t ht
          cases t with
          | zero => simp
          | succ t =>
            simp only [List.getD_cons_zero, List.getD_cons_succ]
            exact hall t (by simpa using ht)
        · intro t ht; omega
      · refine ⟨k + 1, by simpa using hk, ?_, ?_, ?_, ?_⟩
        · have : argminAux (x :: xs) i bi bv = argminAux xs (i + 1) i x := by
            simp [argminAux, hx]
          rw [this, heq]; omega
        · simpa [List.getD_cons_succ] using lt_trans hlt hx
        · intro t ht
          cases t with
          | zero => simpa [List.getD_cons_succ] using le_of_lt hlt
          | succ t =>
            simp only [List.getD_cons_succ]
            exact hmin t (by simpa using ht)
        · intro t ht
          cases t with
          | zero => simpa [List.getD_cons_succ] using hlt
          | succ t =>
            simp only [List.getD_cons_succ]
            exact hfirst t (by omega)
    · have hbvx : bv ≤ x := not_lt.mp hx
      rcases ih (i + 1) bi bv with ⟨heq, hall⟩ | ⟨k, hk, heq, hlt, hmin, hfirst⟩
      · left
        refine ⟨by simpa [argminAux, hx] using heq, ?_⟩
        intro t ht
        cases t with
        | zero => simpa using hbvx
        | succ t =>
          simp only [List.getD_cons_succ]
          exact hall t (by simpa using ht)
      · right
        refine ⟨k + 1, by simpa using hk, ?_, ?_, ?_, ?_⟩
        · have : argminAux (x :: xs) i bi bv = argminAux xs (i + 1) bi bv := by
            simp [argminAux, hx]
          rw [this, heq]; omega
        · simpa [List.getD_cons_succ] using hlt
        · intro t ht
          cases t with
          | zero => simpa [List.getD_cons_succ] using le_of_lt (lt_of_lt_of_le hlt hbvx)
          | succ t =>
            simp only [List.getD_cons_succ]
            exact hmin t (by simpa using ht)
        · intro t ht
          cases t with
          | zero => simpa [List.getD_cons_succ] using lt_of_lt_of_le hlt hbvx
          | succ t =>
            simp only [List.getD_cons_succ]
            exact hfirst t (by omega)

/-- numpy `argmin` returns the index of the first occurrence of the
minimum: it is in range, its value is a lower bound for every entry,
and every strictly earlier entry is strictly greater. -/
theorem argmin_spec (l : List ℚ) (h : l ≠ []) :
    argmin l < l.length ∧
    (∀ t, t < l.length → l.getD (argmin l) 0 ≤ l.getD t 0) ∧
    (∀ t, t < argmin l → l.getD (argmin l) 0 < l.getD t 0) := by
  cases l with
  | nil => exact absurd rfl h
  | cons x xs =>
    have hdef : argmin (x :: xs) = argminAux xs 1 0 x := rfl
    rcases argminAux_spec xs 1 0 x with ⟨heq, hall⟩ | ⟨k, hk, heq, hlt, hmin, hfirst⟩
    · rw [hdef, heq]
      refine ⟨by simp, ?_, ?_⟩
      · intro t ht
        cases t with
        | zero => simp
        | succ t =>
          simp only [List.getD_cons_zero, List.getD_cons_succ]
          exact hall t (by simpa using ht)
      · intro t ht; omega
    · rw [hdef, heq]
      have hidx : 1 + k = k + 1 := by omega
      rw [hidx]
      refine ⟨by simpa using hk, ?_, ?_⟩
      · intro t ht
        cases t with
        | zero => simpa [List.getD_cons_succ] using le_of_lt hlt
        | succ t =>
          simp only [List.getD_cons_succ]
          exact hmin t (by simpa using ht)
      · intro t ht
        cases t with
        | zero => simpa [List.getD_cons_succ] using hlt
        | succ t =>
          simp only [List.getD_cons_succ]
          exact hfirst t (by omega)

/-- `linspace` produces exactly `n` points. -/
theorem linspace_length (a b : ℚ) (n : ℕ) : (linspace a b n).length = n := by
  simp [linspace]

/-- Closed form of the i-th `linspace` point. -/
theorem linspace_getD (a b : ℚ) (n i : ℕ) (h : i < n) :
    (linspace a b n).getD i 0 = a + (i : ℚ) * ((b - a) / ((n : ℚ) - 1)) := by
  unfold linspace
  rw [List.getD_eq_getElem?_getD, List.getElem?_map, List.getElem?_range h]
  rfl

/-- The first `linspace` point is the left endpoint. -/
theorem linspace_first (a b : ℚ) (n : ℕ) (h : 0 < n) : (linspace a b n).getD 0 0 = a := by
  rw [linspace_getD a b n 0 h]
  simp

/-- The last `linspace` point is the right endpoint (for `n ≥ 2`). -/
theorem linspace_last (a b : ℚ) (n : ℕ) (h : 2 ≤ n) :
    (linspace a b n).getD (n - 1) 0 = b := by
  rw [linspace_getD a b n (n - 1) (by omega)]
  have h1 : (1 : ℕ) ≤ n := by omega
  have hc : ((n - 1 : ℕ) : ℚ) = (n : ℚ) - 1 := by
    push_cast [Nat.cast_sub h1]
    ring
  have hn : ((n : ℚ) - 1) ≠ 0 := by
    have : (2 : ℚ) ≤ (n : ℚ) := by exact_mod_cast h
    linarith
  rw [hc]
  field_simp

/-- `linspace` is strictly increasing when the endpoints strictly
increase and there are at least two points. -/
theorem linspace_pairwise_lt (a b : ℚ) (n : ℕ) (h2 : 2 ≤ n) (hab : a < b) :
    (linspace a b n).Pairwise (· < ·) := by
  unfold linspace
  refine List.Pairwise.map _ ?_ (List.pairwise_lt_range n)
  intro i j hij
  have hd : (0 : ℚ) < (b - a) / ((n : ℚ) - 1) := by
    apply div_pos (by linarith)
    have : (2 : ℚ) ≤ (n : ℚ) := by exact_mod_cast h2
    linarith
  have hij' : (i : ℚ) < (j : ℚ) := by exact_mod_cast hij
  nlinarith

/-- The strict order in which numpy's stable insertion sort keeps the
index permutation: ascending key, and ascending original index on equal
keys (the formal statement of "sorted and stable"). -/
def lexLt (key : ℕ → ℚ) (a b : ℕ) : Prop :=
  key a < key b ∨ (key a = key b ∧ a < b)

instance (key : ℕ → ℚ) (a b : ℕ) : Decidable (lexLt key a b) := by
  unfold lexLt
  infer_instance

/-- Inserting into an index list is a permutation of consing. -/
theorem orderedInsertR_perm (key : ℕ → ℚ) (a : ℕ) (l : List ℕ) :
    (orderedInsertR key a l).Perm (a :: l) := by
  induction l with
  | nil => simp [orderedInsertR]
  | cons b t ih =>
    by_cases h : key a < key b
    · simp [orderedInsertR, h]
    · simp only [orderedInsertR, if_neg h]
      exact (ih.cons b).trans (List.Perm.swap a b t)

/-- Inserting an index larger than everything already inserted keeps
the list sorted in the key-then-original-index order: this is exactly
why an insertion sort scanned left to right is stable. -/
theorem orderedInsertR_pairwise (key : ℕ → ℚ) (a : ℕ) (l : List ℕ)
    (hs : l.Pairwise (lexLt key)) (hlt : ∀ b ∈ l, b < a) :
    (orderedInsertR key a l).Pairwise (lexLt key) := by
  induction l with
  | nil => simp [orderedInsertR, lexLt]
  | cons b t ih =>
    rcases List.pairwise_cons.mp hs with ⟨hbt, hst⟩
    by_cases h : key a < key b
    · simp only [orderedInsertR, if_pos h]
      refine List.pairwise_cons.mpr ⟨?_, hs⟩
      intro c hc
      rcases List.mem_cons.mp hc with rfl | hct
      · exact Or.inl h
      · rcases hbt c hct with hk | ⟨hk, _⟩
        · exact Or.inl (lt_trans h hk)
        · exact Or.inl (hk ▸ h)
    · simp only [orderedInsertR, if_neg h]
      refine List.pairwise_cons.mpr
        ⟨?_, ih hst (fun x hx => hlt x (List.mem_cons_of_mem b hx))⟩
      intro c hc
      have hmem := (orderedInsertR_perm key a t).mem_iff.mp hc
      rcases List.mem_cons.mp hmem with rfl | hct
      · rcases lt_or_eq_of_le (not_lt.mp h) with hlt2 | heq
        · exact Or.inl hlt2
        · exact Or.inr ⟨heq, hlt b (List.mem_cons_self b t)⟩
      · exact hbt c hct

/-- Main induction for the insertion sort: folding the elements of a
strictly increasing index segment into a sorted accumulator of smaller
indices yields a permutation sorted in the key-then-index order. -/
theorem insSort_go (key : ℕ → ℚ) :
    ∀ (seg acc : List ℕ), acc.Pairwise (lexLt key) →
      (∀ b ∈ acc, ∀ x ∈ seg, b < x) → seg.Pairwise (· < ·) →
      (seg.foldl (fun acc x => orderedInsertR key x acc) acc).Pairwise (lexLt key) ∧
      (seg.foldl (fun acc x => orderedInsertR key x acc) acc).Perm (acc ++ seg) := by
  intro seg
  induction seg with
  | nil =>
    intro acc h1 _ _
    exact ⟨h1, by simp⟩
  | cons x rest ih =>
    intro acc h1 h2 h3
    rcases List.pairwise_cons.mp h3 with ⟨hxr, hrr⟩
    have hacc : (orderedInsertR key x acc).Pairwise (lexLt key) :=
      orderedInsertR_pairwise key x acc h1
        (fun b hb => h2 b hb x (List.mem_cons_self x rest))
    have hmem : ∀ b ∈ orderedInsertR key x acc, ∀ y ∈ rest, b < y := by
      intro b hb y hy
      rcases List.mem_cons.mp ((orderedInsertR_perm key x acc).mem_iff.mp hb) with rfl | hba
      · exact hxr y hy
      · exact h2 b hba y (List.mem_cons_of_mem x hy)
    rcases ih (orderedInsertR key x acc) hacc hmem hrr with ⟨hp, hperm⟩
    refine ⟨hp, hperm.trans ?_⟩
    have ha : (orderedInsertR key x acc ++ rest).Perm ((x :: acc) ++ rest) :=
      (orderedInsertR_perm key x acc).append_right rest
    have hb : ((x :: acc) ++ rest).Perm (acc ++ x :: rest) := by
      rw [List.cons_append]
      exact List.perm_middle.symm
    exact ha.trans hb

/-- The insertion sort of a strictly increasing index segment is sorted
in the key-then-original-index order and permutes the segment. -/
theorem insSort_spec (key : ℕ → ℚ) (seg : List ℕ) (h : seg.Pairwise (· < ·)) :
    (insSort key seg).Pairwise (lexLt key) ∧ (insSort key seg).Perm seg := by
  have := insSort_go key seg [] List.Pairwise.nil (by simp) h
  simpa [insSort] using this

/-- For at most 16 keys, numpy's quicksort never partitions: the whole
range is handled by the (stable) insertion sort. -/
theorem npyArgsortQuick_small (key : ℕ → ℚ) (num : ℕ) (h : num ≤ 16) :
    npyArgsortQuick key num = insSort key (List.range num) := by
  have hc : num - 1 ≤ 0 + 15 := by omega
  have hgas : 2 * num + 2 = (2 * num + 1) + 1 := by omega
  unfold npyArgsortQuick
  rw [hgas]
  simp only [npyQsortSegs, if_pos hc]
  unfold applySegInsertion
  cases num with
  | zero => simp [insSort]
  | succ m =>
    have h1 : m + 1 - 1 + 1 = m + 1 := by omega
    have ht : (List.range (m + 1)).take (m + 1) = List.range (m + 1) :=
      List.take_of_length_le (by simp)
    have hd : (List.range (m + 1)).drop (m + 1) = [] :=
      List.drop_eq_nil_of_le (by simp)
    simp [h1, ht, hd]

/-- A successful row lookup returns a row actually stored under that
label. -/
theorem lookupRow_mem {β : Type} (rows : List (String × β)) (lbl : String) (v : β)
    (h : lookupRow rows lbl = some v) : (lbl, v) ∈ rows := by
  unfold lookupRow at h
  rcases Option.map_eq_some'.mp h with ⟨pr, hfind, hsnd⟩
  have hmem := List.mem_of_find?_eq_some hfind
  have hpred := List.find?_some hfind
  have hfst : pr.1 = lbl := by simpa using hpred
  cases pr with
  | mk a c =>
    simp only at hfst hsnd
    subst hfst
    subst hsnd
    exact hmem

/-- A successful row lookup means the label occurs in the index. -/
theorem lookupRow_mem_labels {β : Type} (rows : List (String × β)) (lbl : String) (v : β)
    (h : lookupRow rows lbl = some v) : lbl ∈ rows.map Prod.fst :=
  List.mem_map_of_mem Prod.fst (lookupRow_mem rows lbl v h)

/-- C1 (amended): in both `make_essentiality_matrix` and the plotting
path `_plot_essentiality`, the direction handed to the cumulative-area
-ratio function is `['+', '-'][shape > 0]`, which is "-" for every
positive Shape (so the curve reports 1 - Ratio there) and "+" for zero
or negative Shape (reporting Ratio directly) — the reverse of the
assignment the claim states. -/
theorem C1_direction_reversed (shape ndf loc sc hm : ℚ)
    (pdf : ℚ → ℚ → ℚ → ℚ → ℚ → ℚ) (vector : List ℚ) (fit : Fit) (n : ℕ)
    (curveA curveB g : List ℚ) :
    (0 < shape → essentiality_direction shape = "-")
    ∧ (shape ≤ 0 → essentiality_direction shape = "+")
    ∧ (∃ a b gr, essCurveOf pdf vector fit n =
        define_cumulative_area_ratio_function a b gr (essentiality_direction fit.shape))
    ∧ (∃ a b gr, plot_essentiality_indices pdf vector ndf shape loc sc n hm =
        define_cumulative_area_ratio_function a b gr (essentiality_direction shape))
    ∧ define_cumulative_area_ratio_function curveA curveB g "-" =
        (define_cumulative_area_ratio_function curveA curveB g "+").map (fun r => 1 - r) := by
  refine ⟨?_, ?_, ⟨_, _, _, rfl⟩, ⟨_, _, _, rfl⟩, ?_⟩
  · intro hs
    simp [essentiality_direction, hs]
  · intro hs
    simp [essentiality_direction, not_lt.mpr hs]
  · unfold define_cumulative_area_ratio_function
    rw [List.map_map]
    refine List.map_congr_left ?_
    intro i _
    simp

/-- C1 witness: concrete positive and non-positive shapes, obtained
from the theorem. -/
theorem C1_direction_reversed_witness :
    essentiality_direction 2 = "-" ∧ essentiality_direction (-3) = "+" :=
  ⟨(C1_direction_reversed 2 0 0 0 0 (fun _ _ _ _ _ => 0) [] default 0 [] [] []).1
      (by norm_num),
   (C1_direction_reversed (-3) 0 0 0 0 (fun _ _ _ _ _ => 0) [] default 0 [] [] []).2.1
      (by norm_num)⟩

/-- C1 counterexample: at Shape = 1 (positive) the direction the code
computes is "-", not "+" as the claim states, and at Shape = -1 it is
"+", not "-". -/
theorem C1_direction_claim_cex :
    essentiality_direction 1 = "-" ∧ essentiality_direction (-1) = "+"
    ∧ ("-" : String) ≠ "+" := by
  refine ⟨by decide, by decide, by decide⟩

/-- C2 (amended): with no common feature labels,
`make_essentiality_matrix` logs and returns a matrix with no rows; no
`NoCommonFeaturesError` (nor any other exception) is raised. -/
theorem C2_empty_intersection_returns_empty (pdf : ℚ → ℚ → ℚ → ℚ → ℚ → ℚ)
    (fxs : DFq) (fxf : List (String × Fit)) (n : ℕ) (factor : ℚ)
    (h : ∀ g ∈ fxs.rows.map Prod.fst, g ∉ fxf.map Prod.fst) :
    (make_essentiality_matrix pdf fxs fxf n factor).rows = [] := by
  unfold make_essentiality_matrix
  simp
  intro a x hax f hf2
  exact h a (List.mem_map_of_mem Prod.fst hax) (List.mem_map_of_mem Prod.fst hf2)

/-- C2 witness: a concrete pair of frames with disjoint labels. -/
theorem C2_empty_intersection_witness :
    (make_essentiality_matrix (fun _ _ _ _ _ => (0 : ℚ)) ⟨["s1"], [("A", [1])]⟩
      [("B", ⟨1, 1, 1, 1, 1⟩)] 3 1).rows = [] :=
  C2_empty_intersection_returns_empty _ _ _ _ _ (by decide)

/-- C2 counterexample: on disjoint inputs the build returns (an empty
matrix) instead of failing — the embedded function is total and its
value at a disjoint input is the row-less frame. -/
theorem C2_returns_instead_of_failing_cex :
    (make_essentiality_matrix (fun _ _ _ _ _ => (0 : ℚ)) ⟨["s1"], [("X", [1])]⟩
      [("Y", ⟨1, 1, 1, 1, 1⟩)] 3 1).rows = [] := by decide

/-- C6: `make_essentiality_matrix` is a pure function of its inputs:
two invocations on identical matrix, fit table, grid size and factor
(and identical external pdf routine) return identical outputs; the
embedding uses no random source, mirroring the source, which consumes
no randomness in this component. -/
theorem C6_build_deterministic (pdf1 pdf2 : ℚ → ℚ → ℚ → ℚ → ℚ → ℚ)
    (m1 m2 : DFq) (f1 f2 : List (String × Fit)) (n1 n2 : ℕ) (c1 c2 : ℚ)
    (hp : pdf1 = pdf2) (hm : m1 = m2) (hf : f1 = f2) (hn : n1 = n2) (hc : c1 = c2) :
    make_essentiality_matrix pdf1 m1 f1 n1 c1 =
      make_essentiality_matrix pdf2 m2 f2 n2 c2 := by
  subst hp
  subst hm
  subst hf
  subst hn
  subst hc
  rfl

/-- C6 witness: a concrete repeated invocation. -/
theorem C6_build_deterministic_witness :
    make_essentiality_matrix (fun _ _ _ _ _ => (0 : ℚ)) ⟨["s1"], [("A", [1])]⟩
      [("A", ⟨1, 1, 1, 1, 1⟩)] 3 1 =
    make_essentiality_matrix (fun _ _ _ _ _ => (0 : ℚ)) ⟨["s1"], [("A", [1])]⟩
      [("A", ⟨1, 1, 1, 1, 1⟩)] 3 1 :=
  C6_build_deterministic _ _ _ _ _ _ _ _ _ _ rfl rfl rfl rfl rfl

/-- C7 (amended): the fresh grid built per feature by
`make_essentiality_matrix` has exactly `n_x_grids` points, starts at
the row minimum and ends at the row maximum, and is strictly
increasing precisely on the condition that the feature has two distinct
observed values (min < max); for a constant row every grid point equals
that constant and the grid is not strictly increasing. -/
theorem C7_grid_spec (vector : List ℚ) (n : ℕ) (h2 : 2 ≤ n) :
    (build_x_grids vector n).length = n
    ∧ (build_x_grids vector n).getD 0 0 = listMin vector
    ∧ (build_x_grids vector n).getD (n - 1) 0 = listMax vector
    ∧ (listMin vector < listMax vector → (build_x_grids vector n).Pairwise (· < ·)) := by
  refine ⟨linspace_length _ _ _, linspace_first _ _ _ (by omega),
    linspace_last _ _ _ h2, ?_⟩
  intro hlt
  exact linspace_pairwise_lt _ _ _ h2 hlt

/-- C7 witness: a feature with two distinct observed values. -/
theorem C7_grid_spec_witness :
    (build_x_grids [(0 : ℚ), 1] 4).length = 4
    ∧ (build_x_grids [(0 : ℚ), 1] 4).getD 0 0 = listMin [(0 : ℚ), 1]
    ∧ (build_x_grids [(0 : ℚ), 1] 4).getD (4 - 1) 0 = listMax [(0 : ℚ), 1]
    ∧ (listMin [(0 : ℚ), 1] < listMax [(0 : ℚ), 1] →
        (build_x_grids [(0 : ℚ), 1] 4).Pairwise (· < ·)) :=
  C7_grid_spec [0, 1] 4 (by norm_num)

/-- C7 counterexample: a feature whose observed values are all equal
(row [5, 5]) gets the constant grid [5, 5, 5, 5], which is not strictly
increasing. -/
theorem C7_constant_grid_cex : ¬ (build_x_grids [(5 : ℚ), 5] 4).Pairwise (· < ·) := by
  have hg : build_x_grids [(5 : ℚ), 5] 4 = [5, 5, 5, 5] := by
    have hr : List.range 4 = [0, 1, 2, 3] := rfl
    simp [build_x_grids, linspace, listMin, listMax, hr]
  rw [hg]
  intro hp
  rcases List.pairwise_cons.mp hp with ⟨h5, _⟩
  exact absurd (h5 5 (by simp)) (lt_irrefl 5)

/-- C8 (amended): `get_amp_mut_del` never fails and substitutes
all-missing (not zero) rows for absent indicators, returning present
rows populated; but substituted rows do not reliably carry their own
suffix in their name: all absent suffixes share one null series whose
name is the one assigned last, so with only the MUT row present both
the AMP-position and DEL-position rows are named `{gene}_DEL`. -/
theorem C8_missing_rows_substituted (table : DF) (gene : String) (vs : List (Option ℚ))
    (hamp : lookupRow table.rows (gene ++ "_AMP") = none)
    (hmut : lookupRow table.rows (gene ++ "_MUT") = some vs)
    (hdel : lookupRow table.rows (gene ++ "_DEL") = none) :
    get_amp_mut_del table gene =
      [⟨some (gene ++ "_DEL"), List.replicate table.cols.length none⟩,
       ⟨some (gene ++ "_MUT"), vs⟩,
       ⟨some (gene ++ "_DEL"), List.replicate table.cols.length none⟩] := by
  simp only [get_amp_mut_del, hamp, hmut, hdel]
  simp

/-- C8 witness: a table holding only the `G_MUT` indicator row. -/
theorem C8_missing_rows_substituted_witness :
    get_amp_mut_del ⟨["s1"], [("G_MUT", [some 2])]⟩ "G" =
      [⟨some ("G" ++ "_DEL"), List.replicate 1 none⟩,
       ⟨some ("G" ++ "_MUT"), [some 2]⟩,
       ⟨some ("G" ++ "_DEL"), List.replicate 1 none⟩] :=
  C8_missing_rows_substituted ⟨["s1"], [("G_MUT", [some 2])]⟩ "G" [some 2]
    (by decide) (by decide) (by decide)

/-- C8 counterexample: with only GENEX_MUT present, the substituted
AMP-position row is named GENEX_DEL, not GENEX_AMP as the claim
states. -/
theorem C8_wrong_name_cex :
    ((get_amp_mut_del ⟨["s1"], [("GENEX_MUT", [some 1])]⟩ "GENEX").getD 0 default).name
      = some "GENEX_DEL"
    ∧ (some "GENEX_DEL" : Option String) ≠ some "GENEX_AMP" := by
  exact ⟨by decide, by decide⟩

/-- C9: a feature whose fitted Shape is exactly 0 contributes a row to
the output of `make_essentiality_matrix`, and every cell of that row is
0 whatever the observed values and the essentiality-index curve,
because each cell carries the factor `sign(Shape) = sign 0 = 0`. -/
theorem C9_zero_shape_zero_row (pdf : ℚ → ℚ → ℚ → ℚ → ℚ → ℚ) (fxs : DFq)
    (fxf : List (String × Fit)) (n : ℕ) (factor : ℚ) (g : String)
    (vec : List ℚ) (fit : Fit)
    (hv : lookupRow fxs.rows g = some vec) (hf : lookupRow fxf g = some fit)
    (hs : fit.shape = 0) :
    (g, essRow pdf vec fit n factor) ∈ (make_essentiality_matrix pdf fxs fxf n factor).rows
    ∧ ∀ c ∈ essRow pdf vec fit n factor, c = 0 := by
  constructor
  · unfold make_essentiality_matrix
    have hg1 : g ∈ fxs.rows.map Prod.fst := lookupRow_mem_labels _ _ _ hv
    have hg2 : g ∈ fxf.map Prod.fst := lookupRow_mem_labels _ _ _ hf
    have hgc : g ∈ (fxs.rows.map Prod.fst).filter
        (fun x => (fxf.map Prod.fst).contains x) := by
      rw [List.mem_filter]
      refine ⟨hg1, ?_⟩
      simpa using hg2
    have hmm := List.mem_map_of_mem (fun x => (x,
      essRow pdf ((lookupRow fxs.rows x).getD [])
        ((lookupRow fxf x).getD default) n factor)) hgc
    simpa [hv, hf] using hmm
  · intro c hc
    unfold essRow at hc
    rcases List.mem_map.mp hc with ⟨v, _, rfl⟩
    rw [hs]
    norm_num [npSign]

/-- C9 witness: a one-feature build with Shape 0. -/
theorem C9_zero_shape_zero_row_witness :
    ("A", essRow (fun _ _ _ _ _ => (1 : ℚ)) [2] ⟨1, 1, 0, 0, 1⟩ 3 1) ∈
      (make_essentiality_matrix (fun _ _ _ _ _ => (1 : ℚ)) ⟨["s1"], [("A", [2])]⟩
        [("A", ⟨1, 1, 0, 0, 1⟩)] 3 1).rows
    ∧ ∀ c ∈ essRow (fun _ _ _ _ _ => (1 : ℚ)) [2] ⟨1, 1, 0, 0, 1⟩ 3 1, c = 0 :=
  C9_zero_shape_zero_row _ _ _ _ _ _ _ _ (by decide) (by decide) rfl

/-- C4: each output cell of `make_essentiality_matrix` equals
`factor * sign(Shape) * curve[k]` where `k` is the numpy-`argmin` index
of `|grid - v|`: `k` is in range, minimizes the distance to `v`, breaks
ties towards the lowest index (every strictly earlier grid point is
strictly farther), and if `v` equals some grid point then the chosen
grid point equals `v` exactly and `k` is the lowest such index. -/
theorem C4_nearest_lookup (pdf : ℚ → ℚ → ℚ → ℚ → ℚ → ℚ) (vector : List ℚ) (fit : Fit)
    (n : ℕ) (factor : ℚ) (v : ℚ) (k : ℕ) (hn : 0 < n)
    (hk : k = argmin ((build_x_grids vector n).map (fun x => |x - v|))) :
    essRow pdf vector fit n factor = vector.map (fun w =>
      factor * npSign fit.shape * (essCurveOf pdf vector fit n).getD
        (argmin ((build_x_grids vector n).map (fun x => |x - w|))) 0)
    ∧ k < n
    ∧ (∀ t, t < n → |(build_x_grids vector n).getD k 0 - v|
        ≤ |(build_x_grids vector n).getD t 0 - v|)
    ∧ (∀ t, t < k → |(build_x_grids vector n).getD k 0 - v|
        < |(build_x_grids vector n).getD t 0 - v|)
    ∧ (∀ k0, k0 < n → (build_x_grids vector n).getD k0 0 = v →
        (build_x_grids vector n).getD k 0 = v ∧ k ≤ k0) := by
  have hlen_g : (build_x_grids vector n).length = n := linspace_length _ _ _
  have hlen : ((build_x_grids vector n).map (fun x => |x - v|)).length = n := by
    simp [hlen_g]
  have hne : (build_x_grids vector n).map (fun x => |x - v|) ≠ [] := by
    intro h0
    rw [h0] at hlen
    simp at hlen
    omega
  obtain ⟨hik, hmin, hfirst⟩ := argmin_spec _ hne
  rw [← hk] at hik hmin hfirst
  have hgd : ∀ t, t < n →
      ((build_x_grids vector n).map (fun x => |x - v|)).getD t 0
        = |(build_x_grids vector n).getD t 0 - v| := by
    intro t ht
    have ht2 : t < (build_x_grids vector n).length := by omega
    rw [List.getD_eq_getElem?_getD, List.getElem?_map, List.getElem?_eq_getElem ht2]
    simp [List.getD_eq_getElem?_getD, List.getElem?_eq_getElem ht2]
  have hkn : k < n := by
    rw [hlen] at hik
    exact hik
  refine ⟨rfl, hkn, ?_, ?_, ?_⟩
  · intro t ht
    have hm2 := hmin t (by omega)
    rwa [hgd k hkn, hgd t ht] at hm2
  · intro t ht
    have hf2 := hfirst t ht
    rwa [hgd k hkn, hgd t (by omega)] at hf2
  · intro k0 h0 heq
    have hd0 : ((build_x_grids vector n).map (fun x => |x - v|)).getD k0 0 = 0 := by
      rw [hgd k0 h0, heq]
      simp
    have h1 : ((build_x_grids vector n).map (fun x => |x - v|)).getD k 0 ≤ 0 := by
      have hm3 := hmin k0 (by omega)
      rwa [hd0] at hm3
    have h2 : 0 ≤ ((build_x_grids vector n).map (fun x => |x - v|)).getD k 0 := by
      rw [hgd k hkn]
      exact abs_nonneg _
    have hz := le_antisymm h1 h2
    constructor
    · rw [hgd k hkn] at hz
      exact sub_eq_zero.mp (abs_eq_zero.mp hz)
    · by_contra hcc
      push_neg at hcc
      have hf3 := hfirst k0 hcc
      rw [hz, hd0] at hf3
      exact lt_irrefl 0 hf3

/-- C4 witness: grid [0, 1, 2] (from row [0, 2] with 3 grid points) and
the value v = 2, which sits exactly on the grid point of index 2. -/
theorem C4_nearest_lookup_witness :
    essRow (fun _ _ _ _ _ => (0 : ℚ)) [0, 2] default 3 1 = ([0, 2] : List ℚ).map (fun w =>
      1 * npSign (default : Fit).shape *
        (essCurveOf (fun _ _ _ _ _ => (0 : ℚ)) [0, 2] default 3).getD
          (argmin ((build_x_grids [(0 : ℚ), 2] 3).map (fun x => |x - w|))) 0)
    ∧ 2 < 3
    ∧ (∀ t, t < 3 → |(build_x_grids [(0 : ℚ), 2] 3).getD 2 0 - 2|
        ≤ |(build_x_grids [(0 : ℚ), 2] 3).getD t 0 - 2|)
    ∧ (∀ t, t < 2 → |(build_x_grids [(0 : ℚ), 2] 3).getD 2 0 - 2|
        < |(build_x_grids [(0 : ℚ), 2] 3).getD t 0 - 2|)
    ∧ (∀ k0, k0 < 3 → (build_x_grids [(0 : ℚ), 2] 3).getD k0 0 = 2 →
        (build_x_grids [(0 : ℚ), 2] 3).getD 2 0 = 2 ∧ 2 ≤ k0) := by
  refine C4_nearest_lookup (fun _ _ _ _ _ => (0 : ℚ)) [0, 2] default 3 1 2 2
    (by norm_num) ?_
  have hr : List.range 3 = [0, 1, 2] := rfl
  have hg : build_x_grids [(0 : ℚ), 2] 3 = [0, 1, 2] := by
    simp [build_x_grids, linspace, listMin, listMax, hr]
    norm_num
  rw [hg]
  have hm : ([0, 1, 2] : List ℚ).map (fun x => |x - 2|) = [2, 1, 0] := by norm_num
  rw [hm]
  norm_num [argmin, argminAux]

/-- With a non-empty selection, `fit_essentiality` reduces to: fit and
sort the surviving rows if any surviving label is truthy, otherwise
raise the `ValueError` of imv.py line 56. -/
theorem fit_essentiality_selection_char (fitFn : List ℚ → ℚ × ℚ × ℚ × ℚ) (m : DF)
    (fs : List String) (hne : fs ≠ []) :
    fit_essentiality fitFn m (some fs)
      = if (dropAllNa (selectRows m fs)).any (fun r => !r.1.isEmpty) then
          .ok (sortValuesShape ((dropAllNa (selectRows m fs)).map (fitRow fitFn)))
        else
          .error "All of the selected features are not in the feature_x_sample indices." := by
  have hfe : fs.isEmpty = false := by
    cases fs with
    | nil => exact absurd rfl hne
    | cons a t => rfl
  unfold fit_essentiality
  have hproc : processedRows m (some fs) = dropAllNa (selectRows m fs) := by
    simp [processedRows, hfe]
  have hact : selectionActive (some fs) = true := by
    simp [selectionActive, hfe]
  rw [hproc, hact]
  by_cases hq : (dropAllNa (selectRows m fs)).any (fun r => !r.1.isEmpty) = true
  · simp [hq]
  · have hq2 := Bool.eq_false_iff.mpr hq
    simp [hq2]

/-- C5 (amended): with a non-empty selection, the `ValueError` is
raised exactly when no selected row survives `.ix` plus
`.dropna(how='all')` with a truthy (non-empty) label; in particular it
is raised (as the claim states) when every requested identifier is
absent — but also, against the claim, when requested identifiers are
present yet their rows are entirely missing. -/
theorem C5_selection_error_iff (fitFn : List ℚ → ℚ × ℚ × ℚ × ℚ) (m : DF)
    (fs : List String) (hne : fs ≠ []) :
    ((∀ f ∈ fs, lookupRow m.rows f = none) →
      ∃ e, fit_essentiality fitFn m (some fs) = .error e)
    ∧ ((∃ e, fit_essentiality fitFn m (some fs) = .error e) ↔
      ∀ r ∈ dropAllNa (selectRows m fs), r.1 = "") := by
  have hiff : (∃ e, fit_essentiality fitFn m (some fs) = .error e) ↔
      ∀ r ∈ dropAllNa (selectRows m fs), r.1 = "" := by
    rw [fit_essentiality_selection_char fitFn m fs hne]
    by_cases hq : (dropAllNa (selectRows m fs)).any (fun r => !r.1.isEmpty) = true
    · rw [if_pos hq]
      constructor
      · rintro ⟨e, he⟩
        exact absurd he (by simp)
      · intro hall
        rcases List.any_eq_true.mp hq with ⟨r, hr, hpr⟩
        rw [hall r hr] at hpr
        exact absurd hpr (by decide)
    · have hq2 := Bool.eq_false_iff.mpr hq
      rw [if_neg hq]
      constructor
      · intro _ r hr
        have hr2 := List.any_eq_false.mp hq2 r hr
        have hr3 : r.1.isEmpty = true := by
          revert hr2
          cases hb : r.1.isEmpty
          · intro hr2
            simp at hr2
          · intro _
            rfl
        exact (String.isEmpty_iff r.1).mp hr3
      · intro _
        exact ⟨_, rfl⟩
  refine ⟨?_, hiff⟩
  intro habsent
  apply hiff.mpr
  intro r hr
  rcases List.mem_filter.mp hr with ⟨hrmem, hrpred⟩
  rcases List.mem_map.mp hrmem with ⟨f, hf, rfl⟩
  rw [habsent f hf] at hrpred
  rcases List.any_eq_true.mp hrpred with ⟨c, hc, hcs⟩
  rw [List.eq_of_mem_replicate hc] at hcs
  simp at hcs

/-- C5 witness: a one-feature selection on a matrix holding that
feature with an observed value, giving the non-error side. -/
theorem C5_selection_error_iff_witness :
    ((∀ f ∈ ["A"], lookupRow (DF.mk ["s1"] [("A", [some (1 : ℚ)])]).rows f = none) →
      ∃ e, fit_essentiality (fun _ => ((1 : ℚ), 1, 1, 1))
        ⟨["s1"], [("A", [some 1])]⟩ (some ["A"]) = .error e)
    ∧ ((∃ e, fit_essentiality (fun _ => ((1 : ℚ), 1, 1, 1))
        ⟨["s1"], [("A", [some 1])]⟩ (some ["A"]) = .error e) ↔
      ∀ r ∈ dropAllNa (selectRows ⟨["s1"], [("A", [some 1])]⟩ ["A"]), r.1 = "") :=
  C5_selection_error_iff (fun _ => ((1 : ℚ), 1, 1, 1)) ⟨["s1"], [("A", [some 1])]⟩
    ["A"] (by decide)

/-- C5 counterexample: the feature "A" is present in the matrix, yet
selecting exactly {"A"} raises the selection error, because the present
row is entirely missing and is removed by `.dropna(how='all')` before
the `any(index)` check — so the error is not equivalent to "every
requested identifier is absent". -/
theorem C5_error_despite_present_cex :
    lookupRow [("A", [(none : Option ℚ)])] "A" = some [none]
    ∧ fit_essentiality (fun _ => ((1 : ℚ), 1, 1, 1)) ⟨["s1"], [("A", [none])]⟩
        (some ["A"])
      = .error "All of the selected features are not in the feature_x_sample indices." :=
  ⟨by decide, rfl⟩

/-- Reordering through `getD` can only produce stored entries or the
default element. -/
theorem getD_mem_or_default {α : Type} [Inhabited α] (l : List α) (i : ℕ) :
    l.getD i default ∈ l ∨ l.getD i default = default := by
  by_cases h : i < l.length
  · left
    rw [List.getD_eq_getElem?_getD, List.getElem?_eq_getElem h]
    exact List.getElem_mem h
  · right
    rw [List.getD_eq_getElem?_getD, List.getElem?_eq_none (by omega)]
    rfl

/-- C10 (amended): a requested feature `a` that is present but entirely
missing is dropped by `.dropna(how='all')` before fitting and, provided
some other requested feature `b` survives with a truthy label, the call
succeeds and returns a table omitting `a` (no error for `a`); without a
selection, `a`'s row is iterated and the fitter is invoked on its empty
cleaned vector.  (When the dropped feature was the only surviving
candidate the call instead raises the selection error — see the
counterexample.) -/
theorem C10_allmissing_selected_dropped (fitFn : List ℚ → ℚ × ℚ × ℚ × ℚ) (m : DF)
    (fs : List String) (a b : String) (rowa rowb : List (Option ℚ))
    (ha : a ∈ fs) (hra : lookupRow m.rows a = some rowa)
    (hallna : ∀ c ∈ rowa, c = none)
    (hb : b ∈ fs) (hrb : lookupRow m.rows b = some rowb)
    (hsome : ∃ c ∈ rowb, c.isSome = true)
    (hbne : b ≠ "") (hane : a ≠ "") :
    a ∉ (processedRows m (some fs)).map Prod.fst
    ∧ (∃ tbl, fit_essentiality fitFn m (some fs) = .ok tbl ∧ a ∉ tbl.map Prod.fst)
    ∧ (a, rowa) ∈ processedRows m none
    ∧ rowa.filterMap id = []
    ∧ fitRow fitFn (a, rowa) =
        (a, ⟨0, (fitFn []).1, (fitFn []).2.1, (fitFn []).2.2.1, (fitFn []).2.2.2⟩) := by
  have hne : fs ≠ [] := by
    intro h0
    rw [h0] at ha
    exact absurd ha (List.not_mem_nil a)
  have hfe : fs.isEmpty = false := by
    cases fs with
    | nil => exact absurd rfl hne
    | cons x t => rfl
  have hproc : processedRows m (some fs) = dropAllNa (selectRows m fs) := by
    simp [processedRows, hfe]
  have hnot : a ∉ (processedRows m (some fs)).map Prod.fst := by
    rw [hproc]
    intro hmem
    rcases List.mem_map.mp hmem with ⟨r, hr, hfst⟩
    rcases List.mem_filter.mp hr with ⟨hrsel, hrpred⟩
    rcases List.mem_map.mp hrsel with ⟨f, hf, rfl⟩
    have hfa : f = a := hfst
    rw [hfa, hra] at hrpred
    rcases List.any_eq_true.mp hrpred with ⟨c, hc, hcs⟩
    rw [hallna c hc] at hcs
    exact absurd hcs (by decide)
  have hbmem : (b, rowb) ∈ dropAllNa (selectRows m fs) := by
    refine List.mem_filter.mpr ⟨?_, ?_⟩
    · have := List.mem_map_of_mem
        (fun f => (f, (lookupRow m.rows f).getD (List.replicate m.cols.length none))) hb
      simpa [selectRows, hrb] using this
    · rcases hsome with ⟨c, hc, hcs⟩
      exact List.any_eq_true.mpr ⟨c, hc, hcs⟩
  have hany : (dropAllNa (selectRows m fs)).any (fun r => !r.1.isEmpty) = true := by
    refine List.any_eq_true.mpr ⟨(b, rowb), hbmem, ?_⟩
    have : b.isEmpty = false := by
      cases hbb : b.isEmpty
      · rfl
      · exact absurd ((String.isEmpty_iff b).mp hbb) hbne
    simp [this]
  have hclean : rowa.filterMap id = [] :=
    List.filterMap_eq_nil_iff.mpr (fun c hc => by rw [hallna c hc]; rfl)
  refine ⟨hnot, ?_, ?_, hclean, ?_⟩
  · refine ⟨sortValuesShape ((dropAllNa (selectRows m fs)).map (fitRow fitFn)), ?_, ?_⟩
    · rw [fit_essentiality_selection_char fitFn m fs hne, if_pos hany]
    · intro hmem
      rcases List.mem_map.mp hmem with ⟨r, hr, hfst⟩
      unfold sortValuesShape at hr
      rcases List.mem_map.mp hr with ⟨i, _, rfl⟩
      rcases getD_mem_or_default ((dropAllNa (selectRows m fs)).map (fitRow fitFn)) i
        with hmem2 | hdef
      · rcases List.mem_map.mp hmem2 with ⟨r0, hr0, heq⟩
        apply hnot
        rw [hproc]
        have hfst0 : r0.1 = a := by
          have h1 : (fitRow fitFn r0).1 = r0.1 := rfl
          rw [heq] at h1
          rw [← h1]
          exact hfst
        rw [← hfst0]
        exact List.mem_map_of_mem Prod.fst hr0
      · rw [hdef] at hfst
        exact hane (by simpa using hfst.symm)
  · have : processedRows m none = m.rows := rfl
    rw [this]
    exact lookupRow_mem m.rows a rowa hra
  · simp [fitRow, hclean]

/-- C10 witness: selection {A, B} on a matrix where A's row is entirely
missing and B's row is observed. -/
theorem C10_allmissing_selected_dropped_witness :
    "A" ∉ (processedRows ⟨["s1"], [("A", [none]), ("B", [some (1 : ℚ)])]⟩
        (some ["A", "B"])).map Prod.fst
    ∧ (∃ tbl, fit_essentiality (fun _ => ((1 : ℚ), 1, 1, 1))
        ⟨["s1"], [("A", [none]), ("B", [some 1])]⟩ (some ["A", "B"]) = .ok tbl
        ∧ "A" ∉ tbl.map Prod.fst)
    ∧ ("A", [(none : Option ℚ)]) ∈ processedRows
        ⟨["s1"], [("A", [none]), ("B", [some 1])]⟩ none
    ∧ ([(none : Option ℚ)]).filterMap id = []
    ∧ fitRow (fun _ => ((1 : ℚ), 1, 1, 1)) ("A", [(none : Option ℚ)]) =
        ("A", ⟨0, ((fun (_ : List ℚ) => ((1 : ℚ), (1 : ℚ), (1 : ℚ), (1 : ℚ))) []).1,
          ((fun (_ : List ℚ) => ((1 : ℚ), (1 : ℚ), (1 : ℚ), (1 : ℚ))) []).2.1,
          ((fun (_ : List ℚ) => ((1 : ℚ), (1 : ℚ), (1 : ℚ), (1 : ℚ))) []).2.2.1,
          ((fun (_ : List ℚ) => ((1 : ℚ), (1 : ℚ), (1 : ℚ), (1 : ℚ))) []).2.2.2⟩) :=
  C10_allmissing_selected_dropped (fun _ => ((1 : ℚ), 1, 1, 1))
    ⟨["s1"], [("A", [none]), ("B", [some 1])]⟩ ["A", "B"] "A" "B" [none] [some 1]
    (by decide) (by decide) (by decide) (by decide) (by decide) ⟨some 1, by decide, by decide⟩
    (by decide) (by decide)

/-- C10 counterexample: when the present-but-all-missing feature is the
only requested one, `fit_essentiality` does not return a table omitting
it — it raises the selection error for the call. -/
theorem C10_sole_allmissing_raises_cex :
    lookupRow [("B", [(none : Option ℚ), none])] "B" = some [none, none]
    ∧ fit_essentiality (fun _ => ((2 : ℚ), 2, 2, 2))
        ⟨["s1", "s2"], [("B", [none, none])]⟩ (some ["B"])
      = .error "All of the selected features are not in the feature_x_sample indices." :=
  ⟨by decide, rfl⟩

/-- C3 (amended): the table returned by `fit_essentiality` is the fitted
table reordered by the numpy-quicksort argsort permutation of the Shape
column; for tables of at most 16 rows (numpy's quicksort small-segment
cutoff) that permutation is ascending in Shape and, on equal Shapes,
ascending in original position — i.e. the sort is Shape-ascending and
stable — and it is a permutation of all row positions.  (With more than
16 rows the quicksort partition can reorder equal Shapes — see the
counterexample.) -/
theorem C3_sorted_stable_small (fitFn : List ℚ → ℚ × ℚ × ℚ × ℚ) (m : DF)
    (feats : Option (List String)) (tbl tbl0 : List (String × Fit)) (p : List ℕ)
    (hok : fit_essentiality fitFn m feats = .ok tbl)
    (htbl0 : tbl0 = (processedRows m feats).map (fitRow fitFn))
    (hp : p = npyArgsortQuick (fun i => ((tbl0.getD i default).2).shape) tbl0.length)
    (hsmall : tbl0.length ≤ 16) :
    tbl = p.map (fun i => tbl0.getD i default)
    ∧ p.Pairwise (lexLt (fun i => ((tbl0.getD i default).2).shape))
    ∧ p.Perm (List.range tbl0.length) := by
  subst htbl0
  subst hp
  have hsort : tbl = sortValuesShape ((processedRows m feats).map (fitRow fitFn)) := by
    unfold fit_essentiality at hok
    by_cases hcond : (selectionActive feats &&
        !((processedRows m feats).any fun r => !r.1.isEmpty)) = true
    · simp [hcond] at hok
    · simp [hcond] at hok
      exact hok.symm
  obtain ⟨hpair, hperm⟩ := insSort_spec
    (fun i => ((((processedRows m feats).map (fitRow fitFn)).getD i default).2).shape)
    (List.range ((processedRows m feats).map (fitRow fitFn)).length)
    (List.pairwise_lt_range _)
  refine ⟨?_, ?_, ?_⟩
  · rw [hsort]
    rfl
  · rw [npyArgsortQuick_small _ _ hsmall]
    exact hpair
  · rw [npyArgsortQuick_small _ _ hsmall]
    exact hperm

/-- C3 witness: the spec's four-shape example (with integer shapes
5, -2, 5, -9 in place of 0.5, -0.2, 0.5, -0.9): the result is ordered
-9, -2, 5, 5 with the two 5-shape features A and C in original
order. -/
theorem C3_sorted_stable_small_witness :
    [("D", (⟨1, 1, -9, 0, 1⟩ : Fit)), ("B", ⟨1, 1, -2, 0, 1⟩),
      ("A", ⟨1, 1, 5, 0, 1⟩), ("C", ⟨1, 1, 5, 0, 1⟩)]
      = ([3, 1, 0, 2] : List ℕ).map (fun i =>
          ([("A", (⟨1, 1, 5, 0, 1⟩ : Fit)), ("B", ⟨1, 1, -2, 0, 1⟩),
            ("C", ⟨1, 1, 5, 0, 1⟩), ("D", ⟨1, 1, -9, 0, 1⟩)]).getD i default)
    ∧ ([3, 1, 0, 2] : List ℕ).Pairwise (lexLt (fun i =>
        ((([("A", (⟨1, 1, 5, 0, 1⟩ : Fit)), ("B", ⟨1, 1, -2, 0, 1⟩),
          ("C", ⟨1, 1, 5, 0, 1⟩), ("D", ⟨1, 1, -9, 0, 1⟩)]).getD i default).2).shape))
    ∧ ([3, 1, 0, 2] : List ℕ).Perm (List.range
        ([("A", (⟨1, 1, 5, 0, 1⟩ : Fit)), ("B", ⟨1, 1, -2, 0, 1⟩),
          ("C", ⟨1, 1, 5, 0, 1⟩), ("D", ⟨1, 1, -9, 0, 1⟩)]).length) :=
  C3_sorted_stable_small (fun v => ((1 : ℚ), v.headD 0, 0, 1))
    ⟨["s1"], [("A", [some 5]), ("B", [some (-2)]), ("C", [some 5]), ("D", [some (-9)])]⟩
    none
    [("D", ⟨1, 1, -9, 0, 1⟩), ("B", ⟨1, 1, -2, 0, 1⟩),
      ("A", ⟨1, 1, 5, 0, 1⟩), ("C", ⟨1, 1, 5, 0, 1⟩)]
    [("A", ⟨1, 1, 5, 0, 1⟩), ("B", ⟨1, 1, -2, 0, 1⟩),
      ("C", ⟨1, 1, 5, 0, 1⟩), ("D", ⟨1, 1, -9, 0, 1⟩)]
    [3, 1, 0, 2] rfl rfl rfl (by norm_num)

/-- C3 counterexample: 17 features F0..F16 all fitted with the same
Shape (so the claim requires output in original input order).  numpy's
quicksort partitions at 17 elements and swaps equal keys across the
pivot: the returned table lists the features as F0, F14, F13, ...,
breaking the original relative order of equal-Shape features. -/
theorem C3_unstable_sort_cex :
    fit_essentiality (fun _ => ((1 : ℚ), 2, 3, 4))
      ⟨["s1"], [("F0", [some 1]), ("F1", [some 1]), ("F2", [some 1]), ("F3", [some 1]),
        ("F4", [some 1]), ("F5", [some 1]), ("F6", [some 1]), ("F7", [some 1]),
        ("F8", [some 1]), ("F9", [some 1]), ("F10", [some 1]), ("F11", [some 1]),
        ("F12", [some 1]), ("F13", [some 1]), ("F14", [some 1]), ("F15", [some 1]),
        ("F16", [some 1])]⟩ none
      = .ok [("F0", ⟨1, 1, 2, 3, 4⟩), ("F14", ⟨1, 1, 2, 3, 4⟩), ("F13", ⟨1, 1, 2, 3, 4⟩),
        ("F12", ⟨1, 1, 2, 3, 4⟩), ("F11", ⟨1, 1, 2, 3, 4⟩), ("F10", ⟨1, 1, 2, 3, 4⟩),
        ("F9", ⟨1, 1, 2, 3, 4⟩), ("F15", ⟨1, 1, 2, 3, 4⟩), ("F8", ⟨1, 1, 2, 3, 4⟩),
        ("F6", ⟨1, 1, 2, 3, 4⟩), ("F5", ⟨1, 1, 2, 3, 4⟩), ("F4", ⟨1, 1, 2, 3, 4⟩),
        ("F3", ⟨1, 1, 2, 3, 4⟩), ("F2", ⟨1, 1, 2, 3, 4⟩), ("F1", ⟨1, 1, 2, 3, 4⟩),
        ("F7", ⟨1, 1, 2, 3, 4⟩), ("F16", ⟨1, 1, 2, 3, 4⟩)] := rfl
